import Mathlib

/-!
# Verification of the `psy` prefix-sum-index crate

Shallow embedding of the crate's five source functions:

* `prefix_sum_fallback` (src/fallback.rs and the identical private copy in
  src/lib.rs): sequential scalar scan.
* `Avx.prefix_sum_8_inner` (src/avx.rs, also the identical private
  `prefix_sum_8` of src/lib.rs): the 8-lane SSE kernel, modelled at the level
  of 16-bit lanes (wrapping addition modulo 2^16, signed 16-bit comparison,
  byte-level movemask and trailing-zero count).
* `Avx2.prefix_sum_16_inner` (src/avx2.rs): the 16-lane AVX2 kernel, whose
  shifts act independently on each 128-bit half, followed by the explicit
  cross-half carry step.
* the three chunk walkers `Lib.prefix_sum_index` (src/lib.rs),
  `Avx.prefix_sum_8` (src/avx.rs) and `Avx2.prefix_sum_16` (src/avx2.rs).

Bytes are modelled as `Nat` together with a `< 256` bound where a proof needs
it; `usize` values are `Nat` (the Rust code performs `lookup - start` on
`usize`, which is modelled by truncated subtraction, and the invariant
`start ≤ lookup` proved below shows the two agree); `Result<(usize, usize),
usize>` is `Except Nat (Nat × Nat)`.
-/

/-- Interpret a machine word as a signed 16-bit integer (`as i16` in Rust):
take the low 16 bits and subtract 2^16 when the sign bit is set. -/
def toI16 (v : Nat) : Int :=
  if v % 65536 < 32768 then (v % 65536 : Nat) else (v % 65536 : Nat) - 65536

/-- `_mm_add_epi16` / `_mm256_add_epi16`: lane-wise wrapping 16-bit addition. -/
def add16 (a b : List Nat) : List Nat :=
  List.zipWith (fun x y => (x + y) % 65536) a b

/-- `_mm_slli_si128::<2*n>`: shift the whole 128-bit register left (towards
higher lanes) by `n` 16-bit lanes, filling with zeros. -/
def slli_lanes (n : Nat) (v : List Nat) : List Nat :=
  (List.replicate n 0 ++ v).take v.length

/-- `_mm256_slli_si256::<2*n>`: AVX2 shifts act on each 128-bit half (8 lanes)
independently. -/
def slli256_lanes (n : Nat) (v : List Nat) : List Nat :=
  slli_lanes n (v.take 8) ++ slli_lanes n (v.drop 8)

/-- The three shift-and-add steps of `prefix_sum_8` / `prefix_sum_8_inner`:
shift by 4, 2, 1 lanes (source: `_mm_slli_si128` by 8, 4, 2 bytes). -/
def prefixNetwork8 (v : List Nat) : List Nat :=
  let m1 := add16 v (slli_lanes 4 v)
  let m2 := add16 m1 (slli_lanes 2 m1)
  add16 m2 (slli_lanes 1 m2)

/-- The shift-and-add steps of `prefix_sum_16_inner`: per-half shifts by
1, 2, 4 lanes (source order `_mm256_slli_si256` by 2, 4, 8 bytes), then the
cross-half carry: broadcast lane 7 (`_mm256_extract_epi16::<7>`) over the
upper half (`_mm256_set_m128i(hi, zero)`) and add. -/
def prefixNetwork16 (v : List Nat) : List Nat :=
  let m1 := add16 v (slli256_lanes 1 v)
  let m2 := add16 m1 (slli256_lanes 2 m1)
  let m3 := add16 m2 (slli256_lanes 4 m2)
  let hi := m3.getD 7 0
  add16 m3 (List.replicate 8 0 ++ List.replicate 8 hi)

/-- Little-endian byte decomposition of a vector of 16-bit lanes. -/
def bytesOfLanes : List Nat → List Nat
  | [] => []
  | v :: rest => v % 256 :: v / 256 :: bytesOfLanes rest

/-- `_mm_movemask_epi8` / `_mm256_movemask_epi8`: collect the most significant
bit of each byte, byte `i` landing in bit `i`. -/
def movemask_epi8 : List Nat → Nat
  | [] => 0
  | b :: rest => b / 128 % 2 + 2 * movemask_epi8 rest

/-- Fuel-indexed trailing-zero count; `tzAux 32 0 = 32` as for `i32`. -/
def tzAux : Nat → Nat → Nat
  | 0, _ => 0
  | fuel + 1, n => if n % 2 = 1 then 0 else tzAux fuel (n / 2) + 1

/-- `i32::trailing_zeros` on a 32-bit value. -/
def tz32 (n : Nat) : Nat := tzAux 32 n

/-- `prefix_sum_8_inner` of src/avx.rs (and, line for line, the private
`prefix_sum_8` of src/lib.rs): widen the 8 bytes to 16-bit lanes, run the
shift-and-add prefix network, guard against `lookup > i16::MAX`, then compare
all lanes against the broadcast lookup (`_mm_cmpgt_epi16`, signed), movemask,
and take trailing zeros / 2 as the hit lane. -/
def Avx.prefix_sum_8_inner (offsets : List Nat) (lookup : Nat) :
    Except Nat (Nat × Nat) :=
  let buf := prefixNetwork8 offsets
  if lookup > 32767 then .error (buf.getD 7 0)
  else
    let cmp := buf.map (fun v => if toI16 v > toI16 lookup then (65535 : Nat) else 0)
    let mask := movemask_epi8 (bytesOfLanes cmp)
    let idx := tz32 mask / 2
    if idx > 7 then .error (buf.getD 7 0)
    else .ok (idx, buf.getD idx 0)

/-- `prefix_sum_16_inner` of src/avx2.rs. -/
def Avx2.prefix_sum_16_inner (offsets : List Nat) (lookup : Nat) :
    Except Nat (Nat × Nat) :=
  let buf := prefixNetwork16 offsets
  if lookup > 32767 then .error (buf.getD 15 0)
  else
    let cmp := buf.map (fun v => if toI16 v > toI16 lookup then (65535 : Nat) else 0)
    let mask := movemask_epi8 (bytesOfLanes cmp)
    let idx := tz32 mask / 2
    if idx > 15 then .error (buf.getD 15 0)
    else .ok (idx, buf.getD idx 0)

/-- Loop body of `prefix_sum_fallback` (src/fallback.rs; src/lib.rs has the
same function verbatim), with the enumeration index and running total as
accumulators. -/
def fallbackGo (lookup : Nat) : List Nat → Nat → Nat → Except Nat (Nat × Nat)
  | [], _, start => .error start
  | o :: rest, i, start =>
    let current := start + o
    if current > lookup then .ok (i, current)
    else fallbackGo lookup rest (i + 1) current

/-- `prefix_sum_fallback`. -/
def prefix_sum_fallback (offsets : List Nat) (lookup : Nat) :
    Except Nat (Nat × Nat) :=
  fallbackGo lookup offsets 0 0

/-- The private `prefix_sum_8` of src/lib.rs performs exactly the lane
computation of `prefix_sum_8_inner` of src/avx.rs (the two bodies differ only
in how the stack buffer is set up). -/
def Lib.prefix_sum_8 : List Nat → Nat → Except Nat (Nat × Nat) :=
  Avx.prefix_sum_8_inner

/-- Chunk loop of `prefix_sum_index` (src/lib.rs): `chunks_exact(8)` walks
full 8-byte chunks through `prefix_sum_8`, accumulating `start` and `index`
(`index += 8`); the remainder goes to `prefix_sum_fallback`. -/
def Lib.go (lookup : Nat) : List Nat → Nat → Nat → Except Nat (Nat × Nat)
  | o0 :: o1 :: o2 :: o3 :: o4 :: o5 :: o6 :: o7 :: rest, start, index =>
    match Lib.prefix_sum_8 [o0, o1, o2, o3, o4, o5, o6, o7] (lookup - start) with
    | .ok (idx, sum) => .ok (index + idx, start + sum)
    | .error sum => Lib.go lookup rest (start + sum) (index + 8)
  | offsets, start, index =>
    match prefix_sum_fallback offsets (lookup - start) with
    | .ok (idx, sum) => .ok (index + idx, start + sum)
    | .error sum => .error (start + sum)

/-- `prefix_sum_index` (src/lib.rs), the public entry point. -/
def Lib.prefix_sum_index (offsets : List Nat) (lookup : Nat) :
    Except Nat (Nat × Nat) :=
  Lib.go lookup offsets 0 0

/-- Chunk loop of the public `prefix_sum_8` of src/avx.rs: full 8-byte chunks
through `prefix_sum_8_inner` (`index += 8`); the remainder is copied into a
zeroed 8-byte buffer and sent through `prefix_sum_8_inner` as well. -/
def Avx.go (lookup : Nat) : List Nat → Nat → Nat → Except Nat (Nat × Nat)
  | o0 :: o1 :: o2 :: o3 :: o4 :: o5 :: o6 :: o7 :: rest, start, index =>
    match Avx.prefix_sum_8_inner [o0, o1, o2, o3, o4, o5, o6, o7] (lookup - start) with
    | .ok (idx, sum) => .ok (index + idx, start + sum)
    | .error sum => Avx.go lookup rest (start + sum) (index + 8)
  | offsets, start, index =>
    match Avx.prefix_sum_8_inner (offsets ++ List.replicate (8 - offsets.length) 0)
        (lookup - start) with
    | .ok (idx, sum) => .ok (index + idx, start + sum)
    | .error sum => .error (start + sum)

/-- The public `prefix_sum_8` of src/avx.rs. -/
def Avx.prefix_sum_8 (offsets : List Nat) (lookup : Nat) :
    Except Nat (Nat × Nat) :=
  Avx.go lookup offsets 0 0

/-- Chunk loop of the public `prefix_sum_16` of src/avx2.rs: full 16-byte
chunks through `prefix_sum_16_inner`; the remainder is copied into a zeroed
16-byte buffer.  NOTE: the source advances the running index by 8
(`index += 8;`) after a failed 16-wide chunk; the embedding reproduces this
faithfully. -/
def Avx2.go (lookup : Nat) : List Nat → Nat → Nat → Except Nat (Nat × Nat)
  | o0 :: o1 :: o2 :: o3 :: o4 :: o5 :: o6 :: o7 :: o8 :: o9 :: o10 :: o11 ::
      o12 :: o13 :: o14 :: o15 :: rest, start, index =>
    match Avx2.prefix_sum_16_inner
        [o0, o1, o2, o3, o4, o5, o6, o7, o8, o9, o10, o11, o12, o13, o14, o15]
        (lookup - start) with
    | .ok (idx, sum) => .ok (index + idx, start + sum)
    | .error sum => Avx2.go lookup rest (start + sum) (index + 8)
  | offsets, start, index =>
    match Avx2.prefix_sum_16_inner (offsets ++ List.replicate (16 - offsets.length) 0)
        (lookup - start) with
    | .ok (idx, sum) => .ok (index + idx, start + sum)
    | .error sum => .error (start + sum)

/-- The public `prefix_sum_16` of src/avx2.rs. -/
def Avx2.prefix_sum_16 (offsets : List Nat) (lookup : Nat) :
    Except Nat (Nat × Nat) :=
  Avx2.go lookup offsets 0 0

/-- Inclusive running totals of a list, starting from `start`: the value the
`u16_buf` lanes hold after the prefix network. -/
def psums (start : Nat) : List Nat → List Nat
  | [] => []
  | o :: rest => (start + o) :: psums (start + o) rest

/-- The translation a dispatcher applies to a chunk-local result: add the
index base to a local index and the accumulated `start` to a local sum. -/
def shiftRes (i0 δ : Nat) : Except Nat (Nat × Nat) → Except Nat (Nat × Nat)
  | .ok (i, t) => .ok (i0 + i, δ + t)
  | .error t => .error (δ + t)

/-- Index of the first `true` in a list of lane predicates. -/
def firstTrue : List Bool → Option Nat
  | [] => none
  | b :: rest => if b then some 0 else (firstTrue rest).map (· + 1)

/-- Contribution of a list of lane predicates to the movemask value: each
lane occupies two byte positions, hence two mask bits. -/
def maskOf : List Bool → Nat
  | [] => 0
  | b :: rest => (if b then 3 else 0) + 4 * maskOf rest

/-! ## Basic lemmas about `psums`, `firstTrue` and the mask arithmetic -/

theorem psums_length (l : List Nat) (start : Nat) :
    (psums start l).length = l.length := by
  induction l generalizing start with
  | nil => rfl
  | cons o rest ih => simp [psums, ih]

theorem psums_getD (l : List Nat) (start k : Nat) (hk : k < l.length) :
    (psums start l).getD k 0 = start + (l.take (k + 1)).sum := by
  induction l generalizing start k with
  | nil => simp at hk
  | cons o rest ih =>
    cases k with
    | zero => simp [psums]
    | succ k =>
      have hk' : k < rest.length := by simpa using Nat.lt_of_succ_lt_succ hk
      simp only [psums, List.getD_cons_succ, List.take_succ_cons, List.sum_cons,
        ih (start + o) k hk']
      omega

theorem psums_le_sum (l : List Nat) (start x : Nat) (hx : x ∈ psums start l) :
    x ≤ start + l.sum := by
  induction l generalizing start with
  | nil => simp [psums] at hx
  | cons o rest ih =>
    simp only [psums, List.mem_cons] at hx
    rcases hx with rfl | hx
    · simp only [List.sum_cons]; omega
    · have := ih (start + o) hx
      simp only [List.sum_cons]
      omega

theorem sum_mem_psums (l : List Nat) (start : Nat) (h : l ≠ []) :
    start + l.sum ∈ psums start l := by
  induction l generalizing start with
  | nil => simp at h
  | cons o rest ih =>
    by_cases hr : rest = []
    · subst hr; simp [psums]
    · have := ih (start + o) hr
      simp only [psums, List.mem_cons, List.sum_cons]
      right
      simpa [Nat.add_assoc] using this

theorem firstTrue_none_iff (bs : List Bool) :
    firstTrue bs = none ↔ ∀ b ∈ bs, b = false := by
  induction bs with
  | nil => simp [firstTrue]
  | cons b rest ih => cases b <;> simp [firstTrue, ih]

theorem firstTrue_some_lt (bs : List Bool) (k : Nat) (h : firstTrue bs = some k) :
    k < bs.length := by
  induction bs generalizing k with
  | nil => simp [firstTrue] at h
  | cons b rest ih =>
    cases b with
    | true => simp [firstTrue] at h; simp [← h]
    | false =>
      rcases hft : firstTrue rest with _ | k'
      · simp [firstTrue, hft] at h
      · simp [firstTrue, hft] at h
        have := ih k' hft
        simp
        omega

theorem firstTrue_some_getD (bs : List Bool) (k : Nat)
    (h : firstTrue bs = some k) : bs.getD k false = true := by
  induction bs generalizing k with
  | nil => simp [firstTrue] at h
  | cons b rest ih =>
    cases b with
    | true => simp [firstTrue] at h; simp [← h]
    | false =>
      rcases hft : firstTrue rest with _ | k'
      · simp [firstTrue, hft] at h
      · simp [firstTrue, hft] at h
        subst h
        simpa using ih k' hft

theorem firstTrue_getD_of_lt (bs : List Bool) (k j : Nat)
    (h : firstTrue bs = some k) (hj : j < k) : bs.getD j false = false := by
  induction bs generalizing k j with
  | nil => simp [firstTrue] at h
  | cons b rest ih =>
    cases b with
    | true => simp [firstTrue] at h; omega
    | false =>
      rcases hft : firstTrue rest with _ | k'
      · simp [firstTrue, hft] at h
      · simp [firstTrue, hft] at h
        subst h
        cases j with
        | zero => simp
        | succ j => simpa using ih k' j hft (by omega)

theorem movemask_lanes (P : Nat → Prop) [DecidablePred P] (buf : List Nat) :
    movemask_epi8 (bytesOfLanes
        (buf.map (fun v => if P v then (65535 : Nat) else 0))) =
      maskOf (buf.map (fun v => decide (P v))) := by
  induction buf with
  | nil => rfl
  | cons v rest ih =>
    by_cases h : P v <;>
      simp [bytesOfLanes, movemask_epi8, maskOf, h, ih] <;> omega

theorem maskOf_eq_zero (bs : List Bool) (h : ∀ b ∈ bs, b = false) :
    maskOf bs = 0 := by
  induction bs with
  | nil => rfl
  | cons b rest ih =>
    have hb := h b (by simp)
    subst hb
    simp [maskOf, ih fun b hb => h b (by simp [hb])]

theorem tzAux_maskOf (bs : List Bool) (k : Nat) (h : firstTrue bs = some k) :
    ∀ fuel, 2 * bs.length ≤ fuel → tzAux fuel (maskOf bs) = 2 * k := by
  induction bs generalizing k with
  | nil => simp [firstTrue] at h
  | cons b rest ih =>
    intro fuel hfuel
    simp only [List.length_cons] at hfuel
    cases b with
    | true =>
      simp [firstTrue] at h
      obtain ⟨f, rfl⟩ : ∃ f, fuel = f + 1 := ⟨fuel - 1, by omega⟩
      have hm : maskOf (true :: rest) = 3 + 4 * maskOf rest := by simp [maskOf]
      rw [← h, hm]
      simp only [tzAux]
      rw [if_pos (by omega)]
    | false =>
      rcases hft : firstTrue rest with _ | k'
      · simp [firstTrue, hft] at h
      · simp [firstTrue, hft] at h
        subst h
        obtain ⟨f, rfl⟩ : ∃ f, fuel = f + 2 := ⟨fuel - 2, by omega⟩
        have hm : maskOf (false :: rest) = 4 * maskOf rest := by simp [maskOf]
        rw [hm]
        simp only [tzAux]
        rw [if_neg (by omega), if_neg (by omega : ¬ (4 * maskOf rest / 2) % 2 = 1)]
        have e4 : 4 * maskOf rest / 2 / 2 = maskOf rest := by omega
        rw [e4, ih k' hft f (by omega)]
        omega

theorem tz32_maskOf (bs : List Bool) (k : Nat) (h : firstTrue bs = some k)
    (hlen : bs.length ≤ 16) : tz32 (maskOf bs) = 2 * k :=
  tzAux_maskOf bs k h 32 (by omega)

theorem tz32_zero : tz32 0 = 32 := rfl

/-! ## Characterization of the scalar scanner -/

theorem fallbackGo_char (L : Nat) (offs : List Nat) (i0 start : Nat) :
    fallbackGo L offs i0 start =
      match firstTrue ((psums start offs).map (fun s => decide (L < s))) with
      | some k => .ok (i0 + k, (psums start offs).getD k 0)
      | none => .error (start + offs.sum) := by
  induction offs generalizing i0 start with
  | nil => simp [fallbackGo, psums, firstTrue]
  | cons o rest ih =>
    by_cases h : start + o > L
    · simp [fallbackGo, psums, firstTrue, h]
    · rcases hft : firstTrue ((psums (start + o) rest).map (fun s => decide (L < s)))
        with _ | k
      · simp [fallbackGo, psums, firstTrue, h, ih (i0 + 1) (start + o), hft]
        omega
      · simp [fallbackGo, psums, firstTrue, h, ih (i0 + 1) (start + o), hft]
        omega

theorem fallback_char (offs : List Nat) (L : Nat) :
    prefix_sum_fallback offs L =
      match firstTrue ((psums 0 offs).map (fun s => decide (L < s))) with
      | some k => .ok (k, (psums 0 offs).getD k 0)
      | none => .error offs.sum := by
  rw [prefix_sum_fallback, fallbackGo_char]
  rcases hft : firstTrue ((psums 0 offs).map (fun s => decide (L < s))) with _ | k <;>
    simp [hft]

/-! ## The shift-and-add networks compute running totals -/

theorem prefixNetwork8_eq (o0 o1 o2 o3 o4 o5 o6 o7 : Nat)
    (h0 : o0 < 256) (h1 : o1 < 256) (h2 : o2 < 256) (h3 : o3 < 256)
    (h4 : o4 < 256) (h5 : o5 < 256) (h6 : o6 < 256) (h7 : o7 < 256) :
    prefixNetwork8 [o0, o1, o2, o3, o4, o5, o6, o7] =
      psums 0 [o0, o1, o2, o3, o4, o5, o6, o7] := by
  simp [prefixNetwork8, add16, slli_lanes, psums, List.replicate]
  omega

set_option maxHeartbeats 1000000 in
theorem prefixNetwork16_eq
    (o0 o1 o2 o3 o4 o5 o6 o7 o8 o9 o10 o11 o12 o13 o14 o15 : Nat)
    (h0 : o0 < 256) (h1 : o1 < 256) (h2 : o2 < 256) (h3 : o3 < 256)
    (h4 : o4 < 256) (h5 : o5 < 256) (h6 : o6 < 256) (h7 : o7 < 256)
    (h8 : o8 < 256) (h9 : o9 < 256) (h10 : o10 < 256) (h11 : o11 < 256)
    (h12 : o12 < 256) (h13 : o13 < 256) (h14 : o14 < 256) (h15 : o15 < 256) :
    prefixNetwork16
        [o0, o1, o2, o3, o4, o5, o6, o7, o8, o9, o10, o11, o12, o13, o14, o15] =
      psums 0
        [o0, o1, o2, o3, o4, o5, o6, o7, o8, o9, o10, o11, o12, o13, o14, o15] := by
  simp [prefixNetwork16, slli256_lanes, add16, slli_lanes, psums, List.replicate]
  omega

/-! ## The 8-lane kernel agrees with the scalar scanner -/

theorem toI16_of_lt (x : Nat) (hx : x < 32768) : toI16 x = x := by
  rw [toI16, Nat.mod_eq_of_lt (by omega)]
  exact if_pos hx

theorem list_len8 (l : List Nat) (h : l.length = 8) :
    ∃ a b c d e f g h', l = [a, b, c, d, e, f, g, h'] := by
  rcases l with _|⟨a,_|⟨b,_|⟨c,_|⟨d,_|⟨e,_|⟨f,_|⟨g,_|⟨h',_|⟨i,t⟩⟩⟩⟩⟩⟩⟩⟩⟩ <;> simp at h
  exact ⟨a, b, c, d, e, f, g, h', rfl⟩

theorem inner8_eq_fallback (offs : List Nat) (L : Nat) (hlen : offs.length = 8)
    (hb : ∀ x ∈ offs, x < 256) :
    Avx.prefix_sum_8_inner offs L = prefix_sum_fallback offs L := by
  obtain ⟨o0, o1, o2, o3, o4, o5, o6, o7, rfl⟩ := list_len8 offs hlen
  have h0 : o0 < 256 := hb o0 (by simp)
  have h1 : o1 < 256 := hb o1 (by simp)
  have h2 : o2 < 256 := hb o2 (by simp)
  have h3 : o3 < 256 := hb o3 (by simp)
  have h4 : o4 < 256 := hb o4 (by simp)
  have h5 : o5 < 256 := hb o5 (by simp)
  have h6 : o6 < 256 := hb o6 (by simp)
  have h7 : o7 < 256 := hb o7 (by simp)
  have hnet := prefixNetwork8_eq o0 o1 o2 o3 o4 o5 o6 o7 h0 h1 h2 h3 h4 h5 h6 h7
  have hlane : ∀ x ∈ psums 0 [o0, o1, o2, o3, o4, o5, o6, o7], x < 32768 := by
    intro x hx
    have hle := psums_le_sum _ 0 x hx
    have hsum : List.sum [o0, o1, o2, o3, o4, o5, o6, o7] ≤ 2040 := by
      simp only [List.sum_cons, List.sum_nil]
      omega
    omega
  have hget7 : (psums 0 [o0, o1, o2, o3, o4, o5, o6, o7]).getD 7 0 =
      List.sum [o0, o1, o2, o3, o4, o5, o6, o7] := by
    simp only [psums, List.sum_cons, List.sum_nil]
    show 0 + o0 + o1 + o2 + o3 + o4 + o5 + o6 + o7 = _
    omega
  simp only [Avx.prefix_sum_8_inner, hnet, fallback_char]
  by_cases hL : L > 32767
  · rw [if_pos hL]
    have hnone : firstTrue ((psums 0 [o0, o1, o2, o3, o4, o5, o6, o7]).map
        (fun s => decide (L < s))) = none := by
      rw [firstTrue_none_iff]
      intro b hbm
      simp only [List.mem_map] at hbm
      obtain ⟨x, hx, rfl⟩ := hbm
      simp only [decide_eq_false_iff_not]
      have := hlane x hx
      omega
    simp only [hnone, hget7]
  · rw [if_neg hL]
    have hcmp : (psums 0 [o0, o1, o2, o3, o4, o5, o6, o7]).map
          (fun v => if toI16 v > toI16 L then (65535 : Nat) else 0)
        = (psums 0 [o0, o1, o2, o3, o4, o5, o6, o7]).map
          (fun v => if L < v then (65535 : Nat) else 0) := by
      apply List.map_congr_left
      intro x hx
      have hx32 := hlane x hx
      rw [toI16_of_lt x hx32, toI16_of_lt L (by omega)]
      simp only [gt_iff_lt, Nat.cast_lt]
    rw [hcmp, movemask_lanes (fun v => L < v)]
    rcases hft : firstTrue ((psums 0 [o0, o1, o2, o3, o4, o5, o6, o7]).map
        (fun s => decide (L < s))) with _ | k
    · rw [maskOf_eq_zero _ ((firstTrue_none_iff _).1 hft), tz32_zero]
      rw [if_pos (by norm_num)]
      simp only [hft, hget7]
    · have hklen : k < 8 := by
        have := firstTrue_some_lt _ k hft
        simpa [psums_length] using this
      rw [tz32_maskOf _ k hft (by simp [psums_length])]
      have h2k : 2 * k / 2 = k := by omega
      rw [h2k, if_neg (by omega)]

/-! ## The 16-lane kernel agrees with the scalar scanner -/

theorem list_len16 (l : List Nat) (h : l.length = 16) :
    ∃ a0 a1 a2 a3 a4 a5 a6 a7 a8 a9 a10 a11 a12 a13 a14 a15,
      l = [a0, a1, a2, a3, a4, a5, a6, a7, a8, a9, a10, a11, a12, a13, a14, a15] := by
  rcases l with _|⟨a0,_|⟨a1,_|⟨a2,_|⟨a3,_|⟨a4,_|⟨a5,_|⟨a6,_|⟨a7,_|⟨a8,_|⟨a9,_|⟨a10,
    _|⟨a11,_|⟨a12,_|⟨a13,_|⟨a14,_|⟨a15,_|⟨a16,t⟩⟩⟩⟩⟩⟩⟩⟩⟩⟩⟩⟩⟩⟩⟩⟩⟩ <;> simp at h
  exact ⟨a0, a1, a2, a3, a4, a5, a6, a7, a8, a9, a10, a11, a12, a13, a14, a15, rfl⟩

set_option maxHeartbeats 1000000 in
theorem inner16_eq_fallback (offs : List Nat) (L : Nat) (hlen : offs.length = 16)
    (hb : ∀ x ∈ offs, x < 256) :
    Avx2.prefix_sum_16_inner offs L = prefix_sum_fallback offs L := by
  obtain ⟨o0, o1, o2, o3, o4, o5, o6, o7, o8, o9, o10, o11, o12, o13, o14, o15, rfl⟩ :=
    list_len16 offs hlen
  have h0 : o0 < 256 := hb o0 (by simp)
  have h1 : o1 < 256 := hb o1 (by simp)
  have h2 : o2 < 256 := hb o2 (by simp)
  have h3 : o3 < 256 := hb o3 (by simp)
  have h4 : o4 < 256 := hb o4 (by simp)
  have h5 : o5 < 256 := hb o5 (by simp)
  have h6 : o6 < 256 := hb o6 (by simp)
  have h7 : o7 < 256 := hb o7 (by simp)
  have h8 : o8 < 256 := hb o8 (by simp)
  have h9 : o9 < 256 := hb o9 (by simp)
  have h10 : o10 < 256 := hb o10 (by simp)
  have h11 : o11 < 256 := hb o11 (by simp)
  have h12 : o12 < 256 := hb o12 (by simp)
  have h13 : o13 < 256 := hb o13 (by simp)
  have h14 : o14 < 256 := hb o14 (by simp)
  have h15 : o15 < 256 := hb o15 (by simp)
  have hnet := prefixNetwork16_eq o0 o1 o2 o3 o4 o5 o6 o7 o8 o9 o10 o11 o12 o13 o14 o15
    h0 h1 h2 h3 h4 h5 h6 h7 h8 h9 h10 h11 h12 h13 h14 h15
  have hlane : ∀ x ∈ psums 0
      [o0, o1, o2, o3, o4, o5, o6, o7, o8, o9, o10, o11, o12, o13, o14, o15],
      x < 32768 := by
    intro x hx
    have hle := psums_le_sum _ 0 x hx
    have hsum : List.sum
        [o0, o1, o2, o3, o4, o5, o6, o7, o8, o9, o10, o11, o12, o13, o14, o15] ≤ 4080 := by
      simp only [List.sum_cons, List.sum_nil]
      omega
    omega
  have hget15 : (psums 0
        [o0, o1, o2, o3, o4, o5, o6, o7, o8, o9, o10, o11, o12, o13, o14, o15]).getD 15 0 =
      List.sum [o0, o1, o2, o3, o4, o5, o6, o7, o8, o9, o10, o11, o12, o13, o14, o15] := by
    simp only [psums, List.sum_cons, List.sum_nil]
    show 0 + o0 + o1 + o2 + o3 + o4 + o5 + o6 + o7 + o8 + o9 + o10 + o11 + o12 + o13
        + o14 + o15 = _
    omega
  simp only [Avx2.prefix_sum_16_inner, hnet, fallback_char]
  by_cases hL : L > 32767
  · rw [if_pos hL]
    have hnone : firstTrue ((psums 0
        [o0, o1, o2, o3, o4, o5, o6, o7, o8, o9, o10, o11, o12, o13, o14, o15]).map
        (fun s => decide (L < s))) = none := by
      rw [firstTrue_none_iff]
      intro b hbm
      simp only [List.mem_map] at hbm
      obtain ⟨x, hx, rfl⟩ := hbm
      simp only [decide_eq_false_iff_not]
      have := hlane x hx
      omega
    simp only [hnone, hget15]
  · rw [if_neg hL]
    have hcmp : (psums 0
          [o0, o1, o2, o3, o4, o5, o6, o7, o8, o9, o10, o11, o12, o13, o14, o15]).map
          (fun v => if toI16 v > toI16 L then (65535 : Nat) else 0)
        = (psums 0
          [o0, o1, o2, o3, o4, o5, o6, o7, o8, o9, o10, o11, o12, o13, o14, o15]).map
          (fun v => if L < v then (65535 : Nat) else 0) := by
      apply List.map_congr_left
      intro x hx
      have hx32 := hlane x hx
      rw [toI16_of_lt x hx32, toI16_of_lt L (by omega)]
      simp only [gt_iff_lt, Nat.cast_lt]
    rw [hcmp, movemask_lanes (fun v => L < v)]
    rcases hft : firstTrue ((psums 0
        [o0, o1, o2, o3, o4, o5, o6, o7, o8, o9, o10, o11, o12, o13, o14, o15]).map
        (fun s => decide (L < s))) with _ | k
    · rw [maskOf_eq_zero _ ((firstTrue_none_iff _).1 hft), tz32_zero]
      rw [if_pos (by norm_num)]
      simp only [hget15]
    · have hklen : k < 16 := by
        have := firstTrue_some_lt _ k hft
        simpa [psums_length] using this
      rw [tz32_maskOf _ k hft (by simp [psums_length])]
      have h2k : 2 * k / 2 = k := by omega
      rw [h2k, if_neg (by omega)]

/-! ## Composing chunk results: the dispatchers' translation rule -/

theorem fallbackGo_append_ok (L : Nat) (xs ys : List Nat) (i0 start : Nat)
    (r : Nat × Nat) (h : fallbackGo L xs i0 start = .ok r) :
    fallbackGo L (xs ++ ys) i0 start = .ok r := by
  induction xs generalizing i0 start with
  | nil => simp [fallbackGo] at h
  | cons o rest ih =>
    simp only [fallbackGo] at h
    simp only [List.cons_append, fallbackGo]
    by_cases hc : start + o > L
    · rw [if_pos hc] at h ⊢; exact h
    · rw [if_neg hc] at h ⊢; exact ih (i0 + 1) (start + o) h

theorem fallbackGo_append_error (L : Nat) (xs ys : List Nat) (i0 start s : Nat)
    (h : fallbackGo L xs i0 start = .error s) :
    fallbackGo L (xs ++ ys) i0 start = fallbackGo L ys (i0 + xs.length) s := by
  induction xs generalizing i0 start with
  | nil =>
    simp only [fallbackGo, Except.error.injEq] at h
    subst h
    simp
  | cons o rest ih =>
    simp only [fallbackGo] at h
    simp only [List.cons_append, fallbackGo]
    by_cases hc : start + o > L
    · rw [if_pos hc] at h; exact absurd h (by simp)
    · rw [if_neg hc] at h ⊢
      rw [show rest.append ys = rest ++ ys from rfl, ih (i0 + 1) (start + o) h]
      congr 1
      simp
      omega

theorem fallbackGo_shift (L δ : Nat) (ys : List Nat) (i0 j s : Nat)
    (hL : δ ≤ L) (hs : δ ≤ s) :
    fallbackGo L ys (i0 + j) s = shiftRes i0 δ (fallbackGo (L - δ) ys j (s - δ)) := by
  induction ys generalizing j s with
  | nil =>
    simp only [fallbackGo, shiftRes]
    congr 1
    omega
  | cons o rest ih =>
    simp only [fallbackGo]
    by_cases hc : s + o > L
    · rw [if_pos hc, if_pos (by omega : s - δ + o > L - δ)]
      simp only [shiftRes]
      congr 2
      omega
    · rw [if_neg hc, if_neg (by omega : ¬ s - δ + o > L - δ)]
      have harg : s - δ + o = s + o - δ := by omega
      rw [harg]
      have := ih (j + 1) (s + o) (by omega)
      simpa [Nat.add_assoc] using this

theorem fallback_error_le (offs : List Nat) (L s : Nat)
    (h : prefix_sum_fallback offs L = .error s) : s = offs.sum ∧ s ≤ L := by
  rw [fallback_char] at h
  rcases hft : firstTrue ((psums 0 offs).map fun s => decide (L < s)) with _ | k <;>
    rw [hft] at h
  · simp only [Except.error.injEq] at h
    subst h
    refine ⟨rfl, ?_⟩
    rcases offs with _ | ⟨o, rest⟩
    · simp
    · have hmem := sum_mem_psums (o :: rest) 0 (by simp)
      have hfalse := (firstTrue_none_iff _).1 hft _
        (List.mem_map_of_mem (fun s => decide (L < s)) hmem)
      simp only [decide_eq_false_iff_not] at hfalse
      omega
  · simp at h

theorem getD_map_lt {α β : Type} (l : List α) (f : α → β) (k : Nat) (d : β)
    (d' : α) (hk : k < l.length) : (l.map f).getD k d = f (l.getD k d') := by
  induction l generalizing k with
  | nil => simp at hk
  | cons a rest ih =>
    cases k with
    | zero => simp
    | succ k => simpa using ih k (by simpa using Nat.lt_of_succ_lt_succ hk)

theorem fallback_ok_char (offs : List Nat) (L i s : Nat)
    (h : prefix_sum_fallback offs L = .ok (i, s)) :
    i < offs.length ∧ s = (offs.take (i + 1)).sum ∧ L < s ∧
      (offs.take i).sum ≤ L := by
  rw [fallback_char] at h
  rcases hft : firstTrue ((psums 0 offs).map fun s => decide (L < s)) with _ | k <;>
    rw [hft] at h
  · simp at h
  · simp only [Except.ok.injEq, Prod.mk.injEq] at h
    obtain ⟨rfl, rfl⟩ := h
    have hlen : k < offs.length := by
      have := firstTrue_some_lt _ k hft
      simpa [psums_length] using this
    have hhit : L < (psums 0 offs).getD k 0 := by
      have := firstTrue_some_getD _ k hft
      rw [getD_map_lt _ _ k false 0 (by simpa [psums_length] using hlen)] at this
      simpa using this
    refine ⟨hlen, ?_, hhit, ?_⟩
    · rw [psums_getD offs 0 k hlen]
      omega
    · cases k with
      | zero => simp
      | succ j =>
        have hprev := firstTrue_getD_of_lt _ (j + 1) j hft (by omega)
        rw [getD_map_lt _ _ j false 0 (by simp [psums_length]; omega)] at hprev
        simp only [decide_eq_false_iff_not] at hprev
        rw [psums_getD offs 0 j (by omega)] at hprev
        omega

theorem shiftRes_comp (i0 δ i1 δ' : Nat) (r : Except Nat (Nat × Nat)) :
    shiftRes i0 δ (shiftRes i1 δ' r) = shiftRes (i0 + i1) (δ + δ') r := by
  rcases r with t | ⟨i, t⟩ <;> simp [shiftRes, Nat.add_assoc]

theorem fallbackGo_zeros (L n i s : Nat) (hs : s ≤ L) :
    fallbackGo L (List.replicate n 0) i s = .error s := by
  induction n generalizing i with
  | zero => rfl
  | succ n ih =>
    simp only [List.replicate_succ, fallbackGo]
    rw [if_neg (by omega)]
    exact ih (i + 1)

theorem fallback_pad (xs : List Nat) (n L : Nat) :
    prefix_sum_fallback (xs ++ List.replicate n 0) L = prefix_sum_fallback xs L := by
  rcases hres : prefix_sum_fallback xs L with s | ⟨i, t⟩
  · obtain ⟨-, hsle⟩ := fallback_error_le xs L s hres
    rw [prefix_sum_fallback, fallbackGo_append_error L xs _ 0 0 s hres,
      fallbackGo_zeros L n (0 + xs.length) s hsle]
  · rw [prefix_sum_fallback, fallbackGo_append_ok L xs _ 0 0 (i, t) hres]

theorem list_ge8 (l : List Nat) (h : 8 ≤ l.length) :
    ∃ a b c d e f g h' t, l = a :: b :: c :: d :: e :: f :: g :: h' :: t := by
  rcases l with _|⟨a,_|⟨b,_|⟨c,_|⟨d,_|⟨e,_|⟨f,_|⟨g,_|⟨h',t⟩⟩⟩⟩⟩⟩⟩⟩ <;> simp at h
  exact ⟨a, b, c, d, e, f, g, h', t, rfl⟩

theorem list_ge16 (l : List Nat) (h : 16 ≤ l.length) :
    ∃ a0 a1 a2 a3 a4 a5 a6 a7 a8 a9 a10 a11 a12 a13 a14 a15 t,
      l = a0 :: a1 :: a2 :: a3 :: a4 :: a5 :: a6 :: a7 :: a8 :: a9 :: a10 :: a11 ::
        a12 :: a13 :: a14 :: a15 :: t := by
  rcases l with _|⟨a0,_|⟨a1,_|⟨a2,_|⟨a3,_|⟨a4,_|⟨a5,_|⟨a6,_|⟨a7,_|⟨a8,_|⟨a9,_|⟨a10,
    _|⟨a11,_|⟨a12,_|⟨a13,_|⟨a14,_|⟨a15,t⟩⟩⟩⟩⟩⟩⟩⟩⟩⟩⟩⟩⟩⟩⟩⟩ <;> simp at h
  exact ⟨a0, a1, a2, a3, a4, a5, a6, a7, a8, a9, a10, a11, a12, a13, a14, a15, t, rfl⟩

theorem lib_go_short (L : Nat) (offs : List Nat) (start index : Nat)
    (h : offs.length < 8) :
    Lib.go L offs start index =
      shiftRes index start (prefix_sum_fallback offs (L - start)) := by
  rcases offs with _|⟨o0,_|⟨o1,_|⟨o2,_|⟨o3,_|⟨o4,_|⟨o5,_|⟨o6,_|⟨o7,rest⟩⟩⟩⟩⟩⟩⟩⟩ <;>
    try { rcases hres : prefix_sum_fallback _ (L - start) with t | ⟨i, t⟩ <;>
      simp only [Lib.go, hres, shiftRes] }
  simp only [List.length_cons] at h
  omega

theorem avx_go_short (L : Nat) (offs : List Nat) (start index : Nat)
    (h : offs.length < 8) :
    Avx.go L offs start index =
      shiftRes index start (Avx.prefix_sum_8_inner
        (offs ++ List.replicate (8 - offs.length) 0) (L - start)) := by
  rcases offs with _|⟨o0,_|⟨o1,_|⟨o2,_|⟨o3,_|⟨o4,_|⟨o5,_|⟨o6,_|⟨o7,rest⟩⟩⟩⟩⟩⟩⟩⟩ <;>
    try { rcases hres : Avx.prefix_sum_8_inner _ (L - start) with t | ⟨i, t⟩ <;>
      simp only [Avx.go, hres, shiftRes] }
  simp only [List.length_cons] at h
  omega

theorem avx2_go_short (L : Nat) (offs : List Nat) (start index : Nat)
    (h : offs.length < 16) :
    Avx2.go L offs start index =
      shiftRes index start (Avx2.prefix_sum_16_inner
        (offs ++ List.replicate (16 - offs.length) 0) (L - start)) := by
  rcases offs with _|⟨o0,_|⟨o1,_|⟨o2,_|⟨o3,_|⟨o4,_|⟨o5,_|⟨o6,_|⟨o7,_|⟨o8,_|⟨o9,_|⟨o10,
    _|⟨o11,_|⟨o12,_|⟨o13,_|⟨o14,_|⟨o15,rest⟩⟩⟩⟩⟩⟩⟩⟩⟩⟩⟩⟩⟩⟩⟩⟩ <;>
    try { rcases hres : Avx2.prefix_sum_16_inner _ (L - start) with t | ⟨i, t⟩ <;>
      simp only [Avx2.go, hres, shiftRes] }
  simp only [List.length_cons] at h
  omega

/-! ## The chunk walkers agree with the scalar scanner -/

theorem lib_go_eq (L : Nat) (offs : List Nat) (start index : Nat)
    (hstart : start ≤ L) (hb : ∀ x ∈ offs, x < 256) :
    Lib.go L offs start index =
      shiftRes index start (prefix_sum_fallback offs (L - start)) := by
  induction offs, start, index using Lib.go.induct L with
  | case1 o0 o1 o2 o3 o4 o5 o6 o7 rest start index idx sum hok =>
    have hb8 : ∀ x ∈ [o0, o1, o2, o3, o4, o5, o6, o7], x < 256 := by
      intro x hx
      apply hb
      simp only [List.mem_cons] at hx ⊢
      tauto
    have hchunk : prefix_sum_fallback [o0, o1, o2, o3, o4, o5, o6, o7] (L - start) =
        .ok (idx, sum) := by
      rw [← inner8_eq_fallback _ _ (by simp) hb8]
      exact hok
    have hwhole : fallbackGo (L - start)
        (o0 :: o1 :: o2 :: o3 :: o4 :: o5 :: o6 :: o7 :: rest) 0 0 = .ok (idx, sum) := by
      have := fallbackGo_append_ok (L - start) [o0, o1, o2, o3, o4, o5, o6, o7] rest
        0 0 (idx, sum) hchunk
      simpa using this
    simp only [Lib.go, hok]
    rw [prefix_sum_fallback, hwhole]
    simp [shiftRes]
  | case2 o0 o1 o2 o3 o4 o5 o6 o7 rest start index sum herr ih =>
    have hb8 : ∀ x ∈ [o0, o1, o2, o3, o4, o5, o6, o7], x < 256 := by
      intro x hx
      apply hb
      simp only [List.mem_cons] at hx ⊢
      tauto
    have hchunk : prefix_sum_fallback [o0, o1, o2, o3, o4, o5, o6, o7] (L - start) =
        .error sum := by
      rw [← inner8_eq_fallback _ _ (by simp) hb8]
      exact herr
    obtain ⟨hseq, hsle⟩ := fallback_error_le _ _ _ hchunk
    have hstart' : start + sum ≤ L := by omega
    have hbrest : ∀ x ∈ rest, x < 256 := fun x hx => hb x (by simp [hx])
    simp only [Lib.go, herr]
    rw [ih hstart' hbrest]
    have happ := fallbackGo_append_error (L - start) [o0, o1, o2, o3, o4, o5, o6, o7]
      rest 0 0 sum hchunk
    have happ8 : fallbackGo (L - start) ([o0, o1, o2, o3, o4, o5, o6, o7] ++ rest) 0 0 =
        fallbackGo (L - start) rest 8 sum := by
      rw [happ]
      norm_num
    have hshift := fallbackGo_shift (L - start) sum rest 8 0 sum hsle (le_refl sum)
    simp only [Nat.add_zero, Nat.sub_self] at hshift
    rw [show (o0 :: o1 :: o2 :: o3 :: o4 :: o5 :: o6 :: o7 :: rest) =
        [o0, o1, o2, o3, o4, o5, o6, o7] ++ rest from rfl]
    rw [show prefix_sum_fallback ([o0, o1, o2, o3, o4, o5, o6, o7] ++ rest) (L - start) =
        fallbackGo (L - start) ([o0, o1, o2, o3, o4, o5, o6, o7] ++ rest) 0 0 from rfl]
    rw [happ8, hshift, shiftRes_comp]
    rw [show prefix_sum_fallback rest (L - (start + sum)) =
        fallbackGo (L - (start + sum)) rest 0 0 from rfl]
    rw [Nat.sub_sub]
  | case3 offsets start index hshape idx sum hok =>
    have hlen : offsets.length < 8 := by
      by_contra hge
      push_neg at hge
      obtain ⟨a, b, c, d, e, f, g, h', t, rfl⟩ := list_ge8 offsets hge
      exact hshape a b c d e f g h' t rfl
    exact lib_go_short L offsets start index hlen
  | case4 offsets start index hshape sum herr =>
    have hlen : offsets.length < 8 := by
      by_contra hge
      push_neg at hge
      obtain ⟨a, b, c, d, e, f, g, h', t, rfl⟩ := list_ge8 offsets hge
      exact hshape a b c d e f g h' t rfl
    exact lib_go_short L offsets start index hlen

theorem lib_eq_fallback (offs : List Nat) (L : Nat) (hb : ∀ x ∈ offs, x < 256) :
    Lib.prefix_sum_index offs L = prefix_sum_fallback offs L := by
  rw [Lib.prefix_sum_index, lib_go_eq L offs 0 0 (Nat.zero_le L) hb, Nat.sub_zero]
  rcases hres : prefix_sum_fallback offs L with s | ⟨i, t⟩ <;> simp [shiftRes]

theorem avx_go_eq (L : Nat) (offs : List Nat) (start index : Nat)
    (hstart : start ≤ L) (hb : ∀ x ∈ offs, x < 256) :
    Avx.go L offs start index =
      shiftRes index start (prefix_sum_fallback offs (L - start)) := by
  induction offs, start, index using Avx.go.induct L with
  | case1 o0 o1 o2 o3 o4 o5 o6 o7 rest start index idx sum hok =>
    have hb8 : ∀ x ∈ [o0, o1, o2, o3, o4, o5, o6, o7], x < 256 := by
      intro x hx
      apply hb
      simp only [List.mem_cons] at hx ⊢
      tauto
    have hchunk : prefix_sum_fallback [o0, o1, o2, o3, o4, o5, o6, o7] (L - start) =
        .ok (idx, sum) := by
      rw [← inner8_eq_fallback _ _ (by simp) hb8]
      exact hok
    have hwhole : fallbackGo (L - start)
        (o0 :: o1 :: o2 :: o3 :: o4 :: o5 :: o6 :: o7 :: rest) 0 0 = .ok (idx, sum) := by
      have := fallbackGo_append_ok (L - start) [o0, o1, o2, o3, o4, o5, o6, o7] rest
        0 0 (idx, sum) hchunk
      simpa using this
    simp only [Avx.go, hok]
    rw [show prefix_sum_fallback (o0 :: o1 :: o2 :: o3 :: o4 :: o5 :: o6 :: o7 :: rest)
        (L - start) = fallbackGo (L - start)
        (o0 :: o1 :: o2 :: o3 :: o4 :: o5 :: o6 :: o7 :: rest) 0 0 from rfl, hwhole]
    simp [shiftRes]
  | case2 o0 o1 o2 o3 o4 o5 o6 o7 rest start index sum herr ih =>
    have hb8 : ∀ x ∈ [o0, o1, o2, o3, o4, o5, o6, o7], x < 256 := by
      intro x hx
      apply hb
      simp only [List.mem_cons] at hx ⊢
      tauto
    have hchunk : prefix_sum_fallback [o0, o1, o2, o3, o4, o5, o6, o7] (L - start) =
        .error sum := by
      rw [← inner8_eq_fallback _ _ (by simp) hb8]
      exact herr
    obtain ⟨hseq, hsle⟩ := fallback_error_le _ _ _ hchunk
    have hstart' : start + sum ≤ L := by omega
    have hbrest : ∀ x ∈ rest, x < 256 := fun x hx => hb x (by simp [hx])
    simp only [Avx.go, herr]
    rw [ih hstart' hbrest]
    have happ := fallbackGo_append_error (L - start) [o0, o1, o2, o3, o4, o5, o6, o7]
      rest 0 0 sum hchunk
    have happ8 : fallbackGo (L - start) ([o0, o1, o2, o3, o4, o5, o6, o7] ++ rest) 0 0 =
        fallbackGo (L - start) rest 8 sum := by
      rw [happ]
      norm_num
    have hshift := fallbackGo_shift (L - start) sum rest 8 0 sum hsle (le_refl sum)
    simp only [Nat.add_zero, Nat.sub_self] at hshift
    rw [show (o0 :: o1 :: o2 :: o3 :: o4 :: o5 :: o6 :: o7 :: rest) =
        [o0, o1, o2, o3, o4, o5, o6, o7] ++ rest from rfl]
    rw [show prefix_sum_fallback ([o0, o1, o2, o3, o4, o5, o6, o7] ++ rest) (L - start) =
        fallbackGo (L - start) ([o0, o1, o2, o3, o4, o5, o6, o7] ++ rest) 0 0 from rfl]
    rw [happ8, hshift, shiftRes_comp]
    rw [show prefix_sum_fallback rest (L - (start + sum)) =
        fallbackGo (L - (start + sum)) rest 0 0 from rfl]
    rw [Nat.sub_sub]
  | case3 offsets start index hshape idx sum hok =>
    have hlen : offsets.length < 8 := by
      by_contra hge
      push_neg at hge
      obtain ⟨a, b, c, d, e, f, g, h', t, rfl⟩ := list_ge8 offsets hge
      exact hshape a b c d e f g h' t rfl
    rw [avx_go_short L offsets start index hlen]
    congr 1
    rw [inner8_eq_fallback _ _ (by simp; omega) ?_, fallback_pad]
    intro x hx
    rcases List.mem_append.1 hx with hx | hx
    · exact hb x hx
    · have := List.eq_of_mem_replicate hx
      omega
  | case4 offsets start index hshape sum herr =>
    have hlen : offsets.length < 8 := by
      by_contra hge
      push_neg at hge
      obtain ⟨a, b, c, d, e, f, g, h', t, rfl⟩ := list_ge8 offsets hge
      exact hshape a b c d e f g h' t rfl
    rw [avx_go_short L offsets start index hlen]
    congr 1
    rw [inner8_eq_fallback _ _ (by simp; omega) ?_, fallback_pad]
    intro x hx
    rcases List.mem_append.1 hx with hx | hx
    · exact hb x hx
    · have := List.eq_of_mem_replicate hx
      omega

theorem avx_eq_fallback (offs : List Nat) (L : Nat) (hb : ∀ x ∈ offs, x < 256) :
    Avx.prefix_sum_8 offs L = prefix_sum_fallback offs L := by
  rw [Avx.prefix_sum_8, avx_go_eq L offs 0 0 (Nat.zero_le L) hb, Nat.sub_zero]
  rcases hres : prefix_sum_fallback offs L with s | ⟨i, t⟩ <;> simp [shiftRes]

/-! ## Facts about the 16-lane walker (which mis-advances its index base) -/

theorem avx2_go_ok_lt (L : Nat) (offs : List Nat) (start index i s : Nat)
    (hb : ∀ x ∈ offs, x < 256) (h : Avx2.go L offs start index = .ok (i, s)) :
    i < index + offs.length := by
  induction offs, start, index using Avx2.go.induct L with
  | case1 o0 o1 o2 o3 o4 o5 o6 o7 o8 o9 o10 o11 o12 o13 o14 o15 rest start index
      idx sum hok =>
    simp only [Avx2.go, hok] at h
    simp only [Except.ok.injEq, Prod.mk.injEq] at h
    obtain ⟨hi, -⟩ := h
    have hb16 : ∀ x ∈ [o0, o1, o2, o3, o4, o5, o6, o7, o8, o9, o10, o11, o12, o13,
        o14, o15], x < 256 := by
      intro x hx
      apply hb
      simp only [List.mem_cons] at hx ⊢
      tauto
    have hchunk : prefix_sum_fallback
        [o0, o1, o2, o3, o4, o5, o6, o7, o8, o9, o10, o11, o12, o13, o14, o15]
        (L - start) = .ok (idx, sum) := by
      rw [← inner16_eq_fallback _ _ (by simp) hb16]
      exact hok
    have hidx := (fallback_ok_char _ _ _ _ hchunk).1
    simp only [List.length_cons, List.length_nil] at hidx ⊢
    omega
  | case2 o0 o1 o2 o3 o4 o5 o6 o7 o8 o9 o10 o11 o12 o13 o14 o15 rest start index
      sum herr ih =>
    simp only [Avx2.go, herr] at h
    have hbrest : ∀ x ∈ rest, x < 256 := fun x hx => hb x (by simp [hx])
    have := ih hbrest h
    simp only [List.length_cons]
    omega
  | case3 offsets start index hshape idx sum hok =>
    have hlen : offsets.length < 16 := by
      by_contra hge
      push_neg at hge
      obtain ⟨a0, a1, a2, a3, a4, a5, a6, a7, a8, a9, a10, a11, a12, a13, a14, a15,
        t, rfl⟩ := list_ge16 offsets hge
      exact hshape a0 a1 a2 a3 a4 a5 a6 a7 a8 a9 a10 a11 a12 a13 a14 a15 t rfl
    have hpad : Avx2.prefix_sum_16_inner
        (offsets ++ List.replicate (16 - offsets.length) 0) (L - start) =
        prefix_sum_fallback offsets (L - start) := by
      rw [inner16_eq_fallback _ _ (by simp; omega) ?_, fallback_pad]
      intro x hx
      rcases List.mem_append.1 hx with hx | hx
      · exact hb x hx
      · have := List.eq_of_mem_replicate hx
        omega
    have hchunk : prefix_sum_fallback offsets (L - start) = .ok (idx, sum) := by
      rw [← hpad]
      exact hok
    rw [avx2_go_short L offsets start index hlen, hpad, hchunk] at h
    simp only [shiftRes, Except.ok.injEq, Prod.mk.injEq] at h
    obtain ⟨hi, -⟩ := h
    have hidx := (fallback_ok_char _ _ _ _ hchunk).1
    omega
  | case4 offsets start index hshape sum herr =>
    have hlen : offsets.length < 16 := by
      by_contra hge
      push_neg at hge
      obtain ⟨a0, a1, a2, a3, a4, a5, a6, a7, a8, a9, a10, a11, a12, a13, a14, a15,
        t, rfl⟩ := list_ge16 offsets hge
      exact hshape a0 a1 a2 a3 a4 a5 a6 a7 a8 a9 a10 a11 a12 a13 a14 a15 t rfl
    rw [avx2_go_short L offsets start index hlen, herr] at h
    simp [shiftRes] at h

theorem avx2_empty (L : Nat) : Avx2.prefix_sum_16 [] L = .error 0 := by
  rw [Avx2.prefix_sum_16, avx2_go_short L [] 0 0 (by simp)]
  rw [show ([] : List Nat) ++ List.replicate (16 - List.length ([] : List Nat)) 0 =
      List.replicate 16 0 from rfl]
  rw [inner16_eq_fallback _ _ (by simp)
    (by intro x hx; have := List.eq_of_mem_replicate hx; omega)]
  rw [Nat.sub_zero]
  rw [show prefix_sum_fallback (List.replicate 16 0) L =
      fallbackGo L (List.replicate 16 0) 0 0 from rfl]
  rw [fallbackGo_zeros L 16 0 0 (Nat.zero_le L)]
  rfl

/-! ## The overflow guard -/

theorem sum_le_of_bounds (l : List Nat) (hb : ∀ x ∈ l, x < 256) :
    l.sum ≤ 255 * l.length := by
  induction l with
  | nil => simp
  | cons o rest ih =>
    simp only [List.sum_cons, List.length_cons]
    have h1 := hb o (by simp)
    have h2 := ih (fun x hx => hb x (by simp [hx]))
    omega

theorem fallback_all_le (offs : List Nat) (L : Nat) (hle : offs.sum ≤ L) :
    prefix_sum_fallback offs L = .error offs.sum := by
  rw [fallback_char]
  have hnone : firstTrue ((psums 0 offs).map fun s => decide (L < s)) = none := by
    rw [firstTrue_none_iff]
    intro b hbm
    simp only [List.mem_map] at hbm
    obtain ⟨x, hx, rfl⟩ := hbm
    simp only [decide_eq_false_iff_not]
    have := psums_le_sum offs 0 x hx
    omega
  rw [hnone]

theorem inner8_guard (offs : List Nat) (L : Nat) (hlen : offs.length = 8)
    (hb : ∀ x ∈ offs, x < 256) (hL : 32767 < L) :
    Avx.prefix_sum_8_inner offs L = .error offs.sum := by
  rw [inner8_eq_fallback offs L hlen hb]
  have := sum_le_of_bounds offs hb
  rw [hlen] at this
  exact fallback_all_le offs L (by omega)

theorem inner16_guard (offs : List Nat) (L : Nat) (hlen : offs.length = 16)
    (hb : ∀ x ∈ offs, x < 256) (hL : 32767 < L) :
    Avx2.prefix_sum_16_inner offs L = .error offs.sum := by
  rw [inner16_eq_fallback offs L hlen hb]
  have := sum_le_of_bounds offs hb
  rw [hlen] at this
  exact fallback_all_le offs L (by omega)

theorem take_sum_mono (l : List Nat) (j k : Nat) (h : j ≤ k) :
    (l.take j).sum ≤ (l.take k).sum := by
  induction l generalizing j k with
  | nil => simp
  | cons o rest ih =>
    cases j with
    | zero => simp
    | succ j =>
      cases k with
      | zero => omega
      | succ k =>
        simp only [List.take_succ_cons, List.sum_cons]
        have := ih j k (by omega)
        omega

/-! ## Claims -/

/-- C1: the claim that the scalar scanner, `prefix_sum_8`, `prefix_sum_16`
and `prefix_sum_index` return identical results on every input is FALSE on
the code: the `prefix_sum_16` chunk loop advances its index base by 8 per
16-wide chunk, so on the 17-element input `[0;16] ++ [1]` with lookup 0 it
reports index 8 where the scalar scanner (and the other two entry points)
report index 16. -/
theorem c1_equivalence_divergence :
    Avx2.prefix_sum_16 (List.replicate 16 0 ++ [1]) 0 = .ok (8, 1) ∧
    prefix_sum_fallback (List.replicate 16 0 ++ [1]) 0 = .ok (16, 1) ∧
    Lib.prefix_sum_index (List.replicate 16 0 ++ [1]) 0 = .ok (16, 1) ∧
    Avx.prefix_sum_8 (List.replicate 16 0 ++ [1]) 0 = .ok (16, 1) :=
  ⟨rfl, rfl, rfl, rfl⟩

/-- C2: on any 8 byte-valued weights, `prefix_sum_8_inner` returns exactly
the scalar scan's result, and on any 16 byte-valued weights
`prefix_sum_16_inner` (two half-width prefix sums plus the cross-half carry)
returns exactly the scalar scan's result. -/
theorem c2_inner_kernels_match_scalar (offs8 offs16 : List Nat) (L8 L16 : Nat)
    (h8 : offs8.length = 8) (hb8 : ∀ x ∈ offs8, x < 256)
    (h16 : offs16.length = 16) (hb16 : ∀ x ∈ offs16, x < 256) :
    Avx.prefix_sum_8_inner offs8 L8 = prefix_sum_fallback offs8 L8 ∧
    Avx2.prefix_sum_16_inner offs16 L16 = prefix_sum_fallback offs16 L16 :=
  ⟨inner8_eq_fallback offs8 L8 h8 hb8, inner16_eq_fallback offs16 L16 h16 hb16⟩

theorem c2_witness :
    Avx.prefix_sum_8_inner [0, 1, 0, 4, 8, 1, 2, 9] 7 =
      prefix_sum_fallback [0, 1, 0, 4, 8, 1, 2, 9] 7 ∧
    Avx2.prefix_sum_16_inner [0, 1, 0, 4, 8, 1, 2, 9, 8, 1, 4, 1, 3, 7, 1, 6] 52 =
      prefix_sum_fallback [0, 1, 0, 4, 8, 1, 2, 9, 8, 1, 4, 1, 3, 7, 1, 6] 52 :=
  c2_inner_kernels_match_scalar _ _ 7 52 rfl (by decide) rfl (by decide)

/-- C3: the claim that every dispatcher advances `index` by its chunk width
(8 or 16) after a failed full chunk is FALSE for `prefix_sum_16`, which
advances by 8 after a failed 16-wide chunk: on `[1;16] ++ [5]` with lookup
20 the first (failed) 16-chunk leaves index base 8 instead of 16, so the
walker returns index 8 where the scalar scan returns 16. -/
theorem c3_advance_divergence :
    Avx2.prefix_sum_16 (List.replicate 16 1 ++ [5]) 20 = .ok (8, 21) ∧
    prefix_sum_fallback (List.replicate 16 1 ++ [5]) 20 = .ok (16, 21) :=
  ⟨rfl, rfl⟩

/-- C4: when `prefix_sum_index` returns `Found(i, s)` on byte-valued weights,
`s` is the inclusive running total through `i`, `s` strictly exceeds the
lookup, and the exclusive total through `i` is at most the lookup (so `i` is
minimal). -/
theorem c4_found_sound (offs : List Nat) (L i s : Nat) (hb : ∀ x ∈ offs, x < 256)
    (h : Lib.prefix_sum_index offs L = .ok (i, s)) :
    s = (offs.take (i + 1)).sum ∧ L < s ∧ (offs.take i).sum ≤ L := by
  rw [lib_eq_fallback offs L hb] at h
  obtain ⟨-, h1, h2, h3⟩ := fallback_ok_char offs L i s h
  exact ⟨h1, h2, h3⟩

theorem c4_witness :
    (25 : Nat) = ([0, 1, 0, 4, 8, 1, 2, 9, 8, 1].take 8).sum ∧ 21 < 25 ∧
      ([0, 1, 0, 4, 8, 1, 2, 9, 8, 1].take 7).sum ≤ 21 :=
  c4_found_sound [0, 1, 0, 4, 8, 1, 2, 9, 8, 1] 21 7 25 (by decide) rfl

/-- C5: `prefix_sum_index` returns `NotFound(s)` exactly when the total of
all weights is at most the lookup, and then `s` is that total. -/
theorem c5_notfound_iff (offs : List Nat) (L s : Nat) (hb : ∀ x ∈ offs, x < 256) :
    Lib.prefix_sum_index offs L = .error s ↔ offs.sum ≤ L ∧ s = offs.sum := by
  rw [lib_eq_fallback offs L hb]
  constructor
  · intro h
    obtain ⟨h1, h2⟩ := fallback_error_le offs L s h
    exact ⟨by omega, h1⟩
  · rintro ⟨hle, rfl⟩
    exact fallback_all_le offs L hle

theorem c5_witness : Lib.prefix_sum_index [0, 1, 0, 4, 8, 1, 2, 9, 8, 1] 78 = .error 34 :=
  (c5_notfound_iff [0, 1, 0, 4, 8, 1, 2, 9, 8, 1] 78 34 (by decide)).mpr
    ⟨by decide, by decide⟩

/-- C6: on the empty weight sequence every entry point returns
`NotFound(0)`, for every lookup value. -/
theorem c6_empty (L : Nat) :
    Lib.prefix_sum_index [] L = .error 0 ∧ Avx.prefix_sum_8 [] L = .error 0 ∧
    Avx2.prefix_sum_16 [] L = .error 0 := by
  refine ⟨?_, ?_, avx2_empty L⟩
  · rw [lib_eq_fallback [] L (by simp)]
    rfl
  · rw [avx_eq_fallback [] L (by simp)]
    rfl

/-- C7: when the adjusted lookup exceeds 32767, both fixed-width kernels
report local failure carrying the chunk's total sum; in particular a
16-element all-255 sequence with a huge lookup yields `NotFound(255*16)`
from both the 16-lane walker and the public entry point. -/
theorem c7_overflow_guard (c8 c16 : List Nat) (L8 L16 : Nat)
    (hlen8 : c8.length = 8) (hb8 : ∀ x ∈ c8, x < 256) (hL8 : 32767 < L8)
    (hlen16 : c16.length = 16) (hb16 : ∀ x ∈ c16, x < 256) (hL16 : 32767 < L16) :
    Avx.prefix_sum_8_inner c8 L8 = .error c8.sum ∧
    Avx2.prefix_sum_16_inner c16 L16 = .error c16.sum ∧
    Avx2.prefix_sum_16 (List.replicate 16 255) (2 ^ 34) = .error (255 * 16) ∧
    Lib.prefix_sum_index (List.replicate 16 255) (2 ^ 34) = .error (255 * 16) :=
  ⟨inner8_guard c8 L8 hlen8 hb8 hL8, inner16_guard c16 L16 hlen16 hb16 hL16, rfl, rfl⟩

theorem c7_witness :
    Avx.prefix_sum_8_inner (List.replicate 8 255) (2 ^ 34) =
      .error (List.replicate 8 255).sum ∧
    Avx2.prefix_sum_16_inner (List.replicate 16 255) (2 ^ 34) =
      .error (List.replicate 16 255).sum :=
  ⟨(c7_overflow_guard (List.replicate 8 255) (List.replicate 16 255) (2 ^ 34) (2 ^ 34)
      rfl (by decide) (by norm_num) rfl (by decide) (by norm_num)).1,
   (c7_overflow_guard (List.replicate 8 255) (List.replicate 16 255) (2 ^ 34) (2 ^ 34)
      rfl (by decide) (by norm_num) rfl (by decide) (by norm_num)).2.1⟩

/-- C8: the dispatchers' loop invariant: from a state with `start ≤ lookup`,
a failed chunk (any of the three chunk scanners, invoked with the adjusted
lookup `lookup - start`) yields a new accumulated `start + s` still at most
`lookup` — so `lookup - start` never underflows at any iteration or at the
remainder handling. -/
theorem c8_start_invariant (L start : Nat) (c8 c16 r : List Nat) (s8 s16 sr : Nat)
    (hstart : start ≤ L)
    (hlen8 : c8.length = 8) (hb8 : ∀ x ∈ c8, x < 256)
    (hlen16 : c16.length = 16) (hb16 : ∀ x ∈ c16, x < 256) :
    (Avx.prefix_sum_8_inner c8 (L - start) = .error s8 → start + s8 ≤ L) ∧
    (Avx2.prefix_sum_16_inner c16 (L - start) = .error s16 → start + s16 ≤ L) ∧
    (prefix_sum_fallback r (L - start) = .error sr → start + sr ≤ L) := by
  refine ⟨?_, ?_, ?_⟩
  · intro h
    rw [inner8_eq_fallback c8 _ hlen8 hb8] at h
    have := (fallback_error_le _ _ _ h).2
    omega
  · intro h
    rw [inner16_eq_fallback c16 _ hlen16 hb16] at h
    have := (fallback_error_le _ _ _ h).2
    omega
  · intro h
    have := (fallback_error_le _ _ _ h).2
    omega

theorem c8_witness : (50 : Nat) + 8 ≤ 100 ∧ (50 : Nat) + 16 ≤ 100 ∧
    (50 : Nat) + 3 ≤ 100 :=
  ⟨(c8_start_invariant 100 50 (List.replicate 8 1) (List.replicate 16 1) [1, 1, 1]
      8 16 3 (by norm_num) rfl (by decide) rfl (by decide)).1 rfl,
   (c8_start_invariant 100 50 (List.replicate 8 1) (List.replicate 16 1) [1, 1, 1]
      8 16 3 (by norm_num) rfl (by decide) rfl (by decide)).2.1 rfl,
   (c8_start_invariant 100 50 (List.replicate 8 1) (List.replicate 16 1) [1, 1, 1]
      8 16 3 (by norm_num) rfl (by decide) rfl (by decide)).2.2 rfl⟩

/-- C9: monotonicity of `prefix_sum_index` in the lookup: raising the lookup
never lowers a `Found` index, and a `NotFound` stays `NotFound` (with the
same total). -/
theorem c9_monotone (offs : List Nat) (L1 L2 i1 s1 i2 s2 : Nat)
    (hb : ∀ x ∈ offs, x < 256) (hL : L1 ≤ L2) :
    (Lib.prefix_sum_index offs L1 = .ok (i1, s1) →
      Lib.prefix_sum_index offs L2 = .ok (i2, s2) → i1 ≤ i2) ∧
    (∀ s, Lib.prefix_sum_index offs L1 = .error s →
      Lib.prefix_sum_index offs L2 = .error s) := by
  constructor
  · intro h1 h2
    rw [lib_eq_fallback offs L1 hb] at h1
    rw [lib_eq_fallback offs L2 hb] at h2
    obtain ⟨hlen1, hs1, hgt1, hle1⟩ := fallback_ok_char _ _ _ _ h1
    obtain ⟨hlen2, hs2, hgt2, hle2⟩ := fallback_ok_char _ _ _ _ h2
    by_contra hcon
    push_neg at hcon
    have hmono := take_sum_mono offs (i2 + 1) i1 (by omega)
    omega
  · intro s h1
    rw [lib_eq_fallback offs L1 hb] at h1
    rw [lib_eq_fallback offs L2 hb]
    obtain ⟨hseq, hle⟩ := fallback_error_le _ _ _ h1
    subst hseq
    exact fallback_all_le offs L2 (by omega)

theorem c9_witness : (1 : Nat) ≤ 3 :=
  (c9_monotone [0, 1, 0, 4, 8, 1, 2, 9, 8, 1] 0 1 1 1 3 5 (by decide)
    (by norm_num)).1 rfl rfl

/-- C10: any `Found(i, s)` from the zero-padding walkers satisfies
`i < offsets.length`: the padded lanes of the final partial chunk are never
selected. -/
theorem c10_padding_safe (offs : List Nat) (L i s : Nat)
    (hb : ∀ x ∈ offs, x < 256) :
    (Avx.prefix_sum_8 offs L = .ok (i, s) → i < offs.length) ∧
    (Avx2.prefix_sum_16 offs L = .ok (i, s) → i < offs.length) := by
  constructor
  · intro h
    rw [avx_eq_fallback offs L hb] at h
    exact (fallback_ok_char _ _ _ _ h).1
  · intro h
    have := avx2_go_ok_lt L offs 0 0 i s hb h
    simpa using this

theorem c10_witness : (1 : Nat) < 2 ∧ (1 : Nat) < 2 :=
  ⟨(c10_padding_safe [0, 2] 1 1 2 (by decide)).1 rfl,
   (c10_padding_safe [0, 2] 1 1 2 (by decide)).2 rfl⟩

/-! ## The crate's own unit tests, evaluated in the model -/

theorem crate_test_fallback :
    prefix_sum_fallback [0, 1, 4, 8] 0 = .ok (1, 1) ∧
    prefix_sum_fallback [0, 1, 4, 8] 7 = .ok (3, 13) ∧
    prefix_sum_fallback [0, 1, 4, 8] 16 = .error 13 :=
  ⟨rfl, rfl, rfl⟩

theorem crate_test_simd_8 :
    Avx.prefix_sum_8_inner [0, 1, 0, 4, 8, 1, 2, 9] 1 = .ok (3, 5) ∧
    Avx.prefix_sum_8_inner [0, 1, 0, 4, 8, 1, 2, 9] 25 = .error 25 ∧
    Avx.prefix_sum_8_inner (List.replicate 8 255) (1 <<< 34) = .error 2040 :=
  ⟨rfl, rfl, rfl⟩

theorem crate_test_simd_16 :
    Avx2.prefix_sum_16_inner [0, 1, 0, 4, 8, 1, 2, 9, 8, 1, 4, 1, 3, 7, 1, 6] 52 =
      .ok (15, 56) ∧
    Avx2.prefix_sum_16_inner (List.replicate 16 255) (1 <<< 34) = .error 4080 :=
  ⟨rfl, rfl⟩

theorem crate_test_combined :
    Lib.prefix_sum_index [] 0 = .error 0 ∧
    Lib.prefix_sum_index [0, 1, 0, 4, 8, 1, 2, 9, 8, 1] 21 = .ok (7, 25) ∧
    Lib.prefix_sum_index [0, 1, 0, 4, 8, 1, 2, 9, 8, 1] 78 = .error 34 ∧
    Avx.prefix_sum_8 [0, 1, 0, 4, 8, 1, 2, 9, 8, 1] 21 = .ok (7, 25) :=
  ⟨rfl, rfl, rfl, rfl⟩
